import Mathlib

/-!
Verification development for the lollms_to_vs_code extension core
(`src/unnamed/part_000`).  The TypeScript source is shallowly embedded:

* A filesystem path (`vscode.Uri` / `fsPath`) is a `Path`, the list of its
  segments from the root; `path.dirname` is `List.dropLast`, and
  `path.dirname p = p` exactly when `p = []`.  `uri.toString()` is taken as
  a canonical injective key, so the policy map is keyed by `Path` directly.
* The live filesystem is a finite list `fs : List Path` of the FILE paths
  that exist; a path is a directory precisely when some file lies strictly
  beneath it.  `vscode.workspace.fs.stat` succeeds on exactly the members
  of `fs` (files) and the paths with a strict descendant in `fs`
  (directories); everything else is unstattable and skipped by the code.
* A `Map<string, FileState>` is an insertion-ordered association list;
  `Map.get`, `Map.set` (replace in place, append when new) and
  `Map.delete` are `mapGet`, `mapSet`, `mapDelete`.  Policy tags are kept
  as raw strings exactly as in the source ('fullContent', 'signatures',
  'excluded', plus the implicit 'treeOnly'), because the TypeScript type
  `FileState` is a string union that is never checked at runtime.
* Text manipulated by the stream relay is a `List Char`; the JS string
  helpers used by the source (`split('\n\n')`, `startsWith`, `substring`,
  `trim`) are given structurally recursive models below.
-/

namespace Lollms

abbrev Path := List String

abbrev StateMap := List (Path × String)

/-- Model of JS `Map.get`: the value stored at the first matching key. -/
def mapGet (m : StateMap) (k : Path) : Option String :=
  match m with
  | [] => none
  | (k', v) :: rest => if k' = k then some v else mapGet rest k

/-- Model of JS `Map.set`: replace the value in place when the key is
present, otherwise append the new entry (insertion order preserved). -/
def mapSet (m : StateMap) (k : Path) (v : String) : StateMap :=
  match m with
  | [] => [(k, v)]
  | (k', v') :: rest => if k' = k then (k, v) :: rest else (k', v') :: mapSet rest k v

/-- Model of JS `Map.delete`: remove the entry of the key.  (A JS map can
never hold a duplicate key, so removing every occurrence agrees with it on
every reachable map.) -/
def mapDelete (m : StateMap) (k : Path) : StateMap :=
  match m with
  | [] => []
  | (k', v') :: rest => if k' = k then mapDelete rest k else (k', v') :: mapDelete rest k

/-- Embedding of the `while (parentPath !== currentPath)` loop of
`ContextStateManager.getState`, which checks every proper ancestor of the
path for an explicit 'excluded' entry.  Each iteration replaces the path by
`dirname path = dropLast path` and the loop stops at the root (where
`dirname` is the identity), so `p.length` iterations always suffice; the
fuel argument makes that recursion structural. -/
def excludedUpF (m : StateMap) : Nat → Path → Bool
  | 0, _ => false
  | fuel + 1, p =>
    if p.isEmpty then false
    else
      let parent := p.dropLast
      if mapGet m parent = some "excluded" then true else excludedUpF m fuel parent

/-- Ancestor walk of `ContextStateManager.getState`, run with enough fuel. -/
def excludedUp (m : StateMap) (p : Path) : Bool :=
  excludedUpF m p.length p

/-- Embedding of the final `return this._fileStates.get(uri.toString()) ||
'treeOnly'` of `getState` (a stored empty string is falsy in JS, hence also
falls back to 'treeOnly'). -/
def ownPolicy (m : StateMap) (p : Path) : String :=
  match mapGet m p with
  | some v => if v = "" then "treeOnly" else v
  | none => "treeOnly"

/-- Embedding of `ContextStateManager.getState`: a path is 'excluded' when
it or any proper ancestor carries an explicit 'excluded' entry; otherwise
its own explicit entry applies, defaulting to 'treeOnly'. -/
def getState (m : StateMap) (p : Path) : String :=
  if mapGet m p = some "excluded" then "excluded"
  else if excludedUp m p then "excluded"
  else ownPolicy m p

/-- Embedding of the helper `getAllFileUris`: each given URI that stats as
a file contributes itself, each URI that stats as a directory contributes
every file recursively beneath it, and unstattable URIs are skipped.  The
DFS enumeration order of the source is abstracted to the order of `fs`;
none of the verified properties observes that order. -/
def getAllFileUris (fs : List Path) (uris : List Path) : List Path :=
  uris.flatMap fun u =>
    if u ∈ fs then [u] else fs.filter fun f => u.isPrefixOf f && f ≠ u

/-- Embedding of the `allFileUris.forEach` loop of
`ContextStateManager.setState`: 'treeOnly' deletes the entry, any other
state overwrites it. -/
def applyPolicy (m : StateMap) (files : List Path) (st : String) : StateMap :=
  files.foldl (fun acc u => if st = "treeOnly" then mapDelete acc u else mapSet acc u st) m

/-- Observable outcome of one `setState` call: the new in-memory map, the
entry list written to the persisted state file (`none` when no workspace is
open, in which case `saveState` returns without writing), and the change
notifications fired, each carrying its path set. -/
structure SetStateResult where
  map : StateMap
  written : Option (List (Path × String))
  fired : List (List Path)
deriving DecidableEq, Repr

/-- Embedding of `ContextStateManager.setState`: expand the URIs to the
files beneath them, apply the policy to each, save, then fire one change
notification carrying the expanded file list. -/
def setState (fs : List Path) (hasWs : Bool) (m : StateMap) (uris : List Path)
    (st : String) : SetStateResult :=
  let files := getAllFileUris fs uris
  let m' := applyPolicy m files st
  { map := m', written := if hasWs then some m' else none, fired := [files] }

/-- Embedding of `ContextStateManager.cycleState`: the next state is read
from the path's own explicit entry only ('fullContent' → 'signatures' →
'treeOnly', anything else → 'fullContent') and applied through `setState`. -/
def cycleState (fs : List Path) (hasWs : Bool) (m : StateMap) (p : Path) : SetStateResult :=
  let current := mapGet m p
  let next :=
    if current = some "fullContent" then "signatures"
    else if current = some "signatures" then "treeOnly"
    else "fullContent"
  setState fs hasWs m [p] next

/-- Map after one `cycleState` call on a workspace-backed store. -/
def cycledMap (fs : List Path) (m : StateMap) (p : Path) : StateMap :=
  (cycleState fs true m p).map

/-- Embedding of the data `ContextStateManager.saveState` serializes:
`Array.from(this._fileStates.entries())`, the map's entries in insertion
order (which is exactly the association list itself). -/
def savedEntries (m : StateMap) : List (Path × String) :=
  m

/-- Embedding of `new Map<string, FileState>(entries)`: insert every pair
in order.  The `as [string, FileState][]` cast of the source performs no
runtime check, so arbitrary tag strings are accepted unchanged. -/
def loadEntries (es : List (Path × String)) : StateMap :=
  es.foldl (fun acc kv => mapSet acc kv.1 kv.2) []

/-- Observable outcome of one `loadState` call. -/
structure LoadResult where
  map : StateMap
  errorShown : Bool
  fired : List (List Path)
deriving DecidableEq, Repr

/-- Embedding of `ContextStateManager.loadState`.  The argument describes
the persisted file as the platform delivers it: `none` when the file does
not exist (the call returns, keeping the current map); `some none` when
`JSON.parse` or the `new Map(...)` construction throws (the catch block
resets the map to empty and surfaces an error); `some (some es)` when the
file parses into an entry array `es` — the unchecked cast then loads `es`
whatever its tag strings are, and an empty-path-set change event fires. -/
def loadState (prev : StateMap) (file : Option (Option (List (Path × String)))) : LoadResult :=
  match file with
  | none => { map := prev, errorShown := false, fired := [] }
  | some none => { map := [], errorShown := true, fired := [] }
  | some (some es) => { map := loadEntries es, errorShown := false, fired := [[]] }

/-- A real filesystem never contains a file strictly inside another file:
the file list is prefix-free. -/
def wellFormed (fs : List Path) : Prop :=
  ∀ f ∈ fs, ∀ g ∈ fs, f <+: g → f = g

instance wellFormedDecidable (fs : List Path) : Decidable (wellFormed fs) :=
  inferInstanceAs (Decidable (∀ f ∈ fs, ∀ g ∈ fs, f <+: g → f = g))

/-- Embedding of the filtering step of `handleGenerateContext`: enumerate
every file under the root and keep those whose effective policy is not
'excluded'.  Both the rendered tree and the content sections are built from
exactly this list. -/
def includedFiles (fs : List Path) (m : StateMap) (root : Path) : List Path :=
  (getAllFileUris fs [root]).filter fun u => getState m u != "excluded"

/-! Markdown tree rendering (`generateMarkdownTreeFromUris`). -/

/-- Comparison of two character lists as JS compares strings: by the first
differing code unit, a proper prefix sorting first. -/
def charsLe : List Char → List Char → Bool
  | [], _ => true
  | _ :: _, [] => false
  | a :: as, b :: bs => if a = b then charsLe as bs else decide (a < b)

/-- Model of the default JS `Array.prototype.sort()` string ordering. -/
def strLe (a b : String) : Bool :=
  charsLe a.data b.data

/-- Relative path of `p` below `root` (`path.relative`), as segments. -/
def relSegs (root p : Path) : Path :=
  p.drop root.length

/-- Embedding of the insertion loop of `generateMarkdownTreeFromUris`: each
URI's nonempty relative path is inserted into the prefix tree (the `if
(relativePath)` guard skips the root itself).  The tree object is
represented by this list of inserted segment paths; a node exists at `segs`
exactly when `segs` is a nonempty prefix of an inserted path. -/
def insertedPaths (uris : List Path) (root : Path) : List Path :=
  (uris.map (relSegs root)).filter fun r => !r.isEmpty

/-- Node-existence in the prefix tree built by the insertion loop. -/
def treeHasNode (relPaths : List Path) (segs : Path) : Prop :=
  segs ≠ [] ∧ ∃ g ∈ relPaths, segs <+: g

/-- Keys of one tree level: `Object.keys(level).sort()` — the distinct
first segments of the paths at this level, sorted ascending.  The JS sort
returns the unique sorted permutation of the (duplicate-free) key set, here
produced by insertion sort. -/
def childKeys (paths : List Path) : List String :=
  List.insertionSort (fun a b => strLe a b = true) (paths.filterMap List.head?).dedup

/-- Subtree of one key: `level[entry]`, the tails of the paths that start
with `e` and continue below it. -/
def childPaths (paths : List Path) (e : String) : List Path :=
  paths.filterMap fun p =>
    match p with
    | [] => none
    | h :: t => if h = e then (match t with | [] => none | _ => some t) else none

/-- Total number of segments, the measure that strictly decreases when the
renderer descends into a child level. -/
def sumLens (paths : List Path) : Nat :=
  (paths.map List.length).sum

/-- Embedding of one iteration level of `buildLines`'s `flatMap` over the
sorted entries: each entry renders its own line (connector, folder or file
glyph, name, badge from the effective policy) followed by its sublines
re-prefixed with the continuation prefix.  The descent into a child level
is abstracted into the `child` argument. -/
def renderLevel (m : StateMap) (cur : Path) (paths : List Path)
    (child : List Path → Path → List String) : List String → List String
  | [] => []
  | e :: rest =>
    let uri := cur ++ [e]
    let st := getState m uri
    let badge := if st = "fullContent" then " [+]" else if st = "signatures" then " [S]" else ""
    let isLast := rest.isEmpty
    let sub := childPaths paths e
    let isDir := !sub.isEmpty
    let subLines := if sub.isEmpty then [] else child sub uri
    ((if isLast then "└─ " else "├─ ") ++ (if isDir then "📁" else "📄") ++ " " ++ e ++ badge)
      :: (subLines.map fun s => (if isLast then "   " else "│  ") ++ s)
      ++ renderLevel m cur paths child rest

/-- Fueled embedding of `buildLines`: render the sorted keys of the level,
recursing (one fuel unit deeper) into each nonempty child level.  Each
descent strictly decreases `sumLens`, so `sumLens paths + 1` fuel always
suffices (`buildLinesF_fuel` below); the fuel only makes the recursion
structural. -/
def buildLinesF (m : StateMap) : Nat → List Path → Path → List String
  | 0, _, _ => []
  | fuel + 1, paths, cur =>
    renderLevel m cur paths (fun sub uri => buildLinesF m fuel sub uri) (childKeys paths)

/-- Embedding of `buildLines` inside `generateMarkdownTreeFromUris`. -/
def buildLines (m : StateMap) (paths : List Path) (cur : Path) : List String :=
  buildLinesF m (sumLens paths + 1) paths cur

/-- Embedding of the root label: `path.basename(rootUri.fsPath)` with the
source's fallback for a falsy basename (the workspace-name fallback is
folded into the constant, as the workspace is outside the model). -/
def rootName (root : Path) : String :=
  match root.getLast? with
  | some s => if s = "" then "Project" else s
  | none => "Project"

/-- Model of `Array.prototype.join('\n')`. -/
def joinNl (lines : List String) : String :=
  String.mk (List.intercalate ['\n'] (lines.map String.data))

/-- Embedding of `generateMarkdownTreeFromUris`. -/
def generateMarkdownTreeFromUris (m : StateMap) (uris : List Path) (root : Path) : String :=
  joinNl (("📁 " ++ rootName root ++ "/") :: buildLines m (insertedPaths uris root) root)

/-! Specification-side renderer for the tree (used only to compare with the
code's renderer): instead of re-prefixing the sublines of each entry, it
carries the accumulated indentation prefix downwards, which is how the
amended rendering claim describes the output. -/

/-- Specification rendering of one level at accumulated prefix `pref`:
entries in ascending order, each line `pref ++ connector ++ glyph ++ name ++
badge`, children rendered under the prefix extended by the continuation. -/
def specLevel (m : StateMap) (cur : Path) (paths : List Path) (pref : String)
    (child : List Path → Path → String → List String) : List String → List String
  | [] => []
  | e :: rest =>
    let uri := cur ++ [e]
    let st := getState m uri
    let badge := if st = "fullContent" then " [+]" else if st = "signatures" then " [S]" else ""
    let isLast := rest.isEmpty
    let sub := childPaths paths e
    let isDir := !sub.isEmpty
    let subLines :=
      if sub.isEmpty then []
      else child sub uri (pref ++ (if isLast then "   " else "│  "))
    (pref ++ ((if isLast then "└─ " else "├─ ") ++ (if isDir then "📁" else "📄") ++ " " ++ e ++ badge))
      :: subLines
      ++ specLevel m cur paths pref child rest

/-- Specification renderer with the same fuel discipline as `buildLinesF`. -/
def specLinesF (m : StateMap) : Nat → List Path → Path → String → List String
  | 0, _, _, _ => []
  | fuel + 1, paths, cur, pref =>
    specLevel m cur paths pref (fun sub uri pr => specLinesF m fuel sub uri pr) (childKeys paths)

/-- Specification form of the whole rendered tree section. -/
def specGenerateTree (m : StateMap) (uris : List Path) (root : Path) : String :=
  joinNl (("📁 " ++ rootName root ++ "/")
    :: specLinesF m (sumLens (insertedPaths uris root) + 1) (insertedPaths uris root) root "")

/-! Stream relay (`handleChatRequest`). -/

/-- Events the relay posts to the webview. -/
inductive ChatEvent where
  | chatError (msg : String)
  | chatChunk (s : String)
  | chatEnd
deriving DecidableEq, Repr

/-- Outcome of the `fetch` call: a connection-level rejection, or a
response with its `ok` flag, status code, and body — `none` when the body
is absent, otherwise the sequence of decoded strings the reader delivers,
one per `read()`. -/
inductive FetchResult where
  | netError (msg : String)
  | response (ok : Bool) (status : Nat) (body : Option (List String))
deriving DecidableEq, Repr

/-- Whitespace for the model of JS `String.prototype.trim`. -/
def wsChar (c : Char) : Bool :=
  c = ' ' || c = '\n' || c = '\t' || c = '\r'

/-- Model of JS `trim`: strip whitespace from both ends. -/
def trimChars (s : List Char) : List Char :=
  ((s.dropWhile wsChar).reverse.dropWhile wsChar).reverse

/-- Model of JS `split('\n\n')`: cut at each non-overlapping blank-line
separator, scanning left to right. -/
def splitFrames : List Char → List Char → List (List Char)
  | [], acc => [acc.reverse]
  | '\n' :: '\n' :: rest, acc => acc.reverse :: splitFrames rest []
  | c :: rest, acc => splitFrames rest (c :: acc)

/-- One decoded read chunk split into frame candidates. -/
def splitOnBlank (s : List Char) : List (List Char) :=
  splitFrames s []

def quoteChar : Char := Char.ofNat 34

def backslashChar : Char := Char.ofNat 92

/-- Literal opening of the stream frame payloads this relay consumes. -/
def preJson : List Char := "\x7b\"choices\":[\x7b\"delta\":\x7b\"content\":\"".data

/-- Literal closing of those payloads. -/
def sufJson : List Char := "\"\x7d\x7d]\x7d".data

/-- Modelled from the platform `JSON.parse` composed with the source's
`parsed.choices?.[0]?.delta?.content` access, restricted to the frame shape
named in the spec (`{ choices: [{ delta: { content } }] }` with an
escape-free content string): it yields the content exactly when the trimmed
text is that literal shape, and fails (as the catch branch that skips the
frame) on everything else — in particular on every truncated prefix of such
a payload. -/
def jsonDeltaContent (s : List Char) : Option (List Char) :=
  let t := trimChars s
  if preJson.isPrefixOf t && sufJson.isSuffixOf t
      && decide (preJson.length + sufJson.length ≤ t.length) then
    let inner := (t.drop preJson.length).take (t.length - preJson.length - sufJson.length)
    if inner.all (fun c => c ≠ quoteChar && c ≠ backslashChar) then some inner else none
  else none

/-- Embedding of the per-frame body of the stream loop: take the text after
`substring(5)`, skip the `[DONE]` sentinel, parse the JSON payload, forward
the delta content when it is present and truthy (nonempty), and skip
malformed frames. -/
def handleFrame (l : List Char) : List ChatEvent :=
  let jsonStr := l.drop 5
  if trimChars jsonStr = "[DONE]".data then []
  else
    match jsonDeltaContent jsonStr with
    | some c => if c.isEmpty then [] else [ChatEvent.chatChunk (String.mk c)]
    | none => []

/-- Embedding of the processing of one decoded read chunk:
`decoder.decode(value).split('\n\n').filter(l => l.startsWith('data: ')).forEach(...)`.
Note the chunk is split in isolation; no partial frame is carried over to
the next read. -/
def processChunk (s : String) : List ChatEvent :=
  ((splitOnBlank s.data).filter fun l => "data: ".data.isPrefixOf l).flatMap handleFrame

/-- Embedding of `handleChatRequest`: without a configured host, a single
configuration error and nothing else; otherwise the try block relays the
stream (a thrown connection error or a not-ok/bodyless response becomes one
chatError), and the final `postMessage({command:'chatEnd'})` runs after the
try/catch in every case. -/
def handleChatRequest (host : Option String) (resp : FetchResult) : List ChatEvent :=
  match host with
  | none => [ChatEvent.chatError "Lollms host not configured."]
  | some _ =>
    (match resp with
     | FetchResult.netError msg => [ChatEvent.chatError msg]
     | FetchResult.response ok status body =>
       if !ok || body.isNone then [ChatEvent.chatError ("API error: " ++ toString status)]
       else (body.getD []).flatMap processChunk)
    ++ [ChatEvent.chatEnd]

/-- Recognizer for the end-of-turn event. -/
def isEnd : ChatEvent → Bool
  | ChatEvent.chatEnd => true
  | _ => false

end Lollms

namespace Lollms

/-! Basic facts about the map operations. -/

theorem mapGet_mapSet_self (m : StateMap) (k : Path) (v : String) :
    mapGet (mapSet m k v) k = some v := by
  induction m with
  | nil => simp [mapSet, mapGet]
  | cons kv rest ih =>
    obtain ⟨k', v'⟩ := kv
    by_cases h : k' = k
    · subst h; simp [mapSet, mapGet]
    · simp [mapSet, mapGet, h, ih]

theorem mapGet_mapSet_ne (m : StateMap) {k q : Path} (v : String) (h : k ≠ q) :
    mapGet (mapSet m k v) q = mapGet m q := by
  induction m with
  | nil => simp [mapSet, mapGet, h]
  | cons kv rest ih =>
    obtain ⟨k', v'⟩ := kv
    by_cases h' : k' = k
    · subst h'; simp [mapSet, mapGet, h]
    · simp [mapSet, mapGet, h', ih]

theorem mapGet_mapDelete_self (m : StateMap) (k : Path) :
    mapGet (mapDelete m k) k = none := by
  induction m with
  | nil => simp [mapDelete, mapGet]
  | cons kv rest ih =>
    obtain ⟨k', v'⟩ := kv
    by_cases h : k' = k
    · simp [mapDelete, mapGet, h, ih]
    · simp [mapDelete, mapGet, h, ih]

theorem mapGet_mapDelete_ne (m : StateMap) {k q : Path} (h : k ≠ q) :
    mapGet (mapDelete m k) q = mapGet m q := by
  induction m with
  | nil => simp [mapDelete]
  | cons kv rest ih =>
    obtain ⟨k', v'⟩ := kv
    by_cases h' : k' = k
    · subst h'; simp [mapDelete, mapGet, h, ih]
    · simp [mapDelete, mapGet, h', ih]

theorem mapSet_append_of_not_mem (m : StateMap) (k : Path) (v : String)
    (h : k ∉ m.map Prod.fst) : mapSet m k v = m ++ [(k, v)] := by
  induction m with
  | nil => simp [mapSet]
  | cons kv rest ih =>
    obtain ⟨k', v'⟩ := kv
    simp only [List.map_cons, List.mem_cons] at h
    push_neg at h
    have h1 : ¬ k' = k := fun hh => h.1 hh.symm
    simp [mapSet, h1, ih h.2]

theorem loadEntries_eq_self_aux :
    ∀ (es acc : StateMap), ((acc ++ es).map Prod.fst).Nodup →
      es.foldl (fun a kv => mapSet a kv.1 kv.2) acc = acc ++ es := by
  intro es
  induction es with
  | nil => intro acc _; simp
  | cons kv rest ih =>
    intro acc hnd
    obtain ⟨k, v⟩ := kv
    have hnd' : (acc.map Prod.fst ++ k :: rest.map Prod.fst).Nodup := by
      simpa using hnd
    have hk : k ∉ acc.map Prod.fst := fun hmem =>
      (List.nodup_cons.mp (List.nodup_middle.mp hnd')).1 (List.mem_append_left _ hmem)
    have hstep : mapSet acc k v = acc ++ [(k, v)] := mapSet_append_of_not_mem _ _ _ hk
    have hre : (acc ++ (k, v) :: rest) = (acc ++ [(k, v)]) ++ rest := by simp
    calc rest.foldl (fun a kv => mapSet a kv.1 kv.2) (mapSet acc k v)
        = rest.foldl (fun a kv => mapSet a kv.1 kv.2) (acc ++ [(k, v)]) := by rw [hstep]
      _ = (acc ++ [(k, v)]) ++ rest := by
            refine ih _ ?_
            rw [← hre]; exact hnd
      _ = acc ++ (k, v) :: rest := by simp

theorem loadEntries_eq_self (m : StateMap) (h : (m.map Prod.fst).Nodup) :
    loadEntries m = m := by
  have := loadEntries_eq_self_aux m [] (by simpa using h)
  simpa [loadEntries] using this

/-! Facts about `applyPolicy`. -/

theorem applyPolicy_cons (m : StateMap) (f : Path) (rest : List Path) (st : String) :
    applyPolicy m (f :: rest) st
      = applyPolicy (if st = "treeOnly" then mapDelete m f else mapSet m f st) rest st := rfl

theorem applyPolicy_not_mem :
    ∀ (files : List Path) (m : StateMap) (st : String) (p : Path), p ∉ files →
      mapGet (applyPolicy m files st) p = mapGet m p := by
  intro files
  induction files with
  | nil => intro m st p _; rfl
  | cons f rest ih =>
    intro m st p hp
    have hpf : f ≠ p := fun h => hp (h ▸ List.mem_cons_self f rest)
    have hpr : p ∉ rest := fun h => hp (List.mem_cons_of_mem _ h)
    rw [applyPolicy_cons, ih _ _ _ hpr]
    by_cases hst : st = "treeOnly"
    · rw [if_pos hst, mapGet_mapDelete_ne _ hpf]
    · rw [if_neg hst, mapGet_mapSet_ne _ _ hpf]

theorem applyPolicy_mem_set :
    ∀ (files : List Path) (m : StateMap) (st : String) (p : Path),
      st ≠ "treeOnly" → p ∈ files →
      mapGet (applyPolicy m files st) p = some st := by
  intro files
  induction files with
  | nil => intro m st p _ hp; simp at hp
  | cons f rest ih =>
    intro m st p hst hp
    rw [applyPolicy_cons]
    by_cases hpr : p ∈ rest
    · exact ih _ _ _ hst hpr
    · have hpf : p = f := by
        rcases List.mem_cons.mp hp with h | h
        · exact h
        · exact absurd h hpr
      subst hpf
      rw [applyPolicy_not_mem _ _ _ _ hpr, if_neg hst, mapGet_mapSet_self]

theorem applyPolicy_mem_delete :
    ∀ (files : List Path) (m : StateMap) (p : Path), p ∈ files →
      mapGet (applyPolicy m files "treeOnly") p = none := by
  intro files
  induction files with
  | nil => intro m p hp; simp at hp
  | cons f rest ih =>
    intro m p hp
    rw [applyPolicy_cons]
    by_cases hpr : p ∈ rest
    · exact ih _ _ hpr
    · have hpf : p = f := by
        rcases List.mem_cons.mp hp with h | h
        · exact h
        · exact absurd h hpr
      subst hpf
      rw [applyPolicy_not_mem _ _ _ _ hpr, if_pos rfl, mapGet_mapDelete_self]

end Lollms

namespace Lollms

/-! Facts about `getAllFileUris`. -/

theorem getAllFileUris_subset {fs uris : List Path} {q : Path}
    (h : q ∈ getAllFileUris fs uris) : q ∈ fs := by
  simp only [getAllFileUris, List.mem_flatMap] at h
  obtain ⟨u, _, hq⟩ := h
  by_cases hu : u ∈ fs
  · rw [if_pos hu] at hq
    simp only [List.mem_singleton] at hq
    exact hq ▸ hu
  · rw [if_neg hu] at hq
    exact (List.mem_filter.mp hq).1

theorem getAllFileUris_single_file (fs : List Path) (p : Path) (h : p ∈ fs) :
    getAllFileUris fs [p] = [p] := by
  simp [getAllFileUris, h]

theorem getAllFileUris_nil (fs uris : List Path)
    (h : ∀ u ∈ uris, ∀ f ∈ fs, ¬ u <+: f) :
    getAllFileUris fs uris = [] := by
  simp only [getAllFileUris]
  rw [List.flatMap_eq_nil_iff]
  intro u hu
  have hnotfs : u ∉ fs := fun hm => h u hu u hm (List.prefix_refl u)
  rw [if_neg hnotfs]
  rw [List.filter_eq_nil_iff]
  intro f hf
  have : ¬ u <+: f := h u hu f hf
  simp [List.isPrefixOf_iff_prefix, this]

theorem getAllFileUris_dir_mem {fs : List Path} {d f : Path}
    (hd : d ∉ fs) (hf : f ∈ fs) (hpre : d <+: f) (hne : f ≠ d) :
    f ∈ getAllFileUris fs [d] := by
  simp only [getAllFileUris, List.flatMap_cons, List.flatMap_nil, List.append_nil, if_neg hd]
  refine List.mem_filter.mpr ⟨hf, ?_⟩
  simp [List.isPrefixOf_iff_prefix, hpre, hne]

theorem getAllFileUris_root_prefix {fs : List Path} {root q : Path}
    (h : q ∈ getAllFileUris fs [root]) : root <+: q := by
  simp only [getAllFileUris, List.flatMap_cons, List.flatMap_nil, List.append_nil] at h
  by_cases hr : root ∈ fs
  · rw [if_pos hr] at h
    simp only [List.mem_singleton] at h
    exact h ▸ List.prefix_refl root
  · rw [if_neg hr] at h
    have := (List.mem_filter.mp h).2
    simp only [Bool.and_eq_true, decide_eq_true_eq, List.isPrefixOf_iff_prefix] at this
    exact this.1

/-! Characterization of the ancestor walk and of `getState`. -/

theorem prefix_strict_iff_dropLast {p q : Path} (hp : p ≠ []) :
    (q <+: p ∧ q ≠ p) ↔ q <+: p.dropLast := by
  constructor
  · rintro ⟨hq, hne⟩
    have hlen : q.length < p.length :=
      lt_of_le_of_ne hq.length_le (fun h => hne (hq.eq_of_length h))
    have h1 : q = p.take q.length := List.prefix_iff_eq_take.mp hq
    rw [List.dropLast_eq_take]
    refine List.prefix_iff_eq_take.mpr ?_
    rw [List.take_take, Nat.min_eq_left (by omega)]
    exact h1
  · intro hq'
    have hq : q <+: p := hq'.trans ( List.dropLast_prefix p)
    refine ⟨hq, fun he => ?_⟩
    have h1 : q.length ≤ p.dropLast.length := hq'.length_le
    rw [List.length_dropLast] at h1
    have h2 : 0 < p.length := List.length_pos.mpr hp
    subst he
    omega

theorem excludedUpF_iff (m : StateMap) :
    ∀ (fuel : Nat) (p : Path), p.length ≤ fuel →
      (excludedUpF m fuel p = true
        ↔ ∃ q, q <+: p ∧ q ≠ p ∧ mapGet m q = some "excluded") := by
  intro fuel
  induction fuel with
  | zero =>
    intro p hlen
    have hp : p = [] := List.eq_nil_of_length_eq_zero (Nat.le_zero.mp hlen)
    subst hp
    simp only [excludedUpF]
    constructor
    · intro h; exact absurd h (by simp)
    · rintro ⟨q, hq, hne, _⟩
      exact absurd (List.prefix_nil.mp hq) hne
  | succ fuel ih =>
    intro p hlen
    by_cases hp : p = []
    · subst hp
      simp only [excludedUpF, List.isEmpty_nil, if_pos rfl]
      constructor
      · intro h; exact absurd h (by simp)
      · rintro ⟨q, hq, hne, _⟩
        exact absurd (List.prefix_nil.mp hq) hne
    · have hne : p.isEmpty = false := by
        simpa [List.isEmpty_iff] using hp
      have hlen' : p.dropLast.length ≤ fuel := by
        rw [List.length_dropLast]; omega
      simp only [excludedUpF, hne, Bool.false_eq_true, if_false]
      by_cases hm : mapGet m p.dropLast = some "excluded"
      · rw [if_pos hm]
        constructor
        · intro _
          obtain ⟨ha, hb⟩ := (prefix_strict_iff_dropLast hp).mpr (List.prefix_refl p.dropLast)
          exact ⟨p.dropLast, ha, hb, hm⟩
        · intro _; rfl
      · rw [if_neg hm, ih _ hlen']
        constructor
        · rintro ⟨q, hq, hqne, hqm⟩
          obtain ⟨ha, hb⟩ := (prefix_strict_iff_dropLast hp).mpr hq
          exact ⟨q, ha, hb, hqm⟩
        · rintro ⟨q, hq, hqne, hqm⟩
          have hq' : q <+: p.dropLast := (prefix_strict_iff_dropLast hp).mp ⟨hq, hqne⟩
          have hqd : q ≠ p.dropLast := fun he => hm (he ▸ hqm)
          exact ⟨q, hq', hqd, hqm⟩

theorem excludedUp_iff (m : StateMap) (p : Path) :
    excludedUp m p = true ↔ ∃ q, q <+: p ∧ q ≠ p ∧ mapGet m q = some "excluded" :=
  excludedUpF_iff m p.length p (Nat.le_refl _)

theorem ownPolicy_ne_excluded {m : StateMap} {p : Path}
    (h : mapGet m p ≠ some "excluded") : ownPolicy m p ≠ "excluded" := by
  unfold ownPolicy
  rcases hm : mapGet m p with _ | v
  · simp
  · by_cases hv : v = ""
    · simp [hv]
    · have hve : v ≠ "excluded" := fun he => h (by rw [hm, he])
      simp [hv, hve]

theorem getState_excluded_iff (m : StateMap) (p : Path) :
    getState m p = "excluded" ↔ ∃ q, q <+: p ∧ mapGet m q = some "excluded" := by
  by_cases h1 : mapGet m p = some "excluded"
  · simp only [getState, if_pos h1]
    exact iff_of_true trivial ⟨p, List.prefix_refl p, h1⟩
  · by_cases h2 : excludedUp m p = true
    · simp only [getState, if_neg h1, h2, if_true]
      obtain ⟨q, hq, _, hqm⟩ := (excludedUp_iff m p).mp h2
      exact iff_of_true trivial ⟨q, hq, hqm⟩
    · simp only [getState, if_neg h1, h2, Bool.false_eq_true, if_false]
      refine iff_of_false (ownPolicy_ne_excluded h1) ?_
      rintro ⟨q, hq, hqm⟩
      by_cases hqp : q = p
      · exact h1 (hqp ▸ hqm)
      · exact h2 ((excludedUp_iff m p).mpr ⟨q, hq, hqp, hqm⟩)

theorem getState_of_no_excluded_ancestor {m : StateMap} {p : Path}
    (h : ¬ ∃ q, q <+: p ∧ mapGet m q = some "excluded") :
    getState m p = ownPolicy m p := by
  have h1 : mapGet m p ≠ some "excluded" := fun hm => h ⟨p, List.prefix_refl p, hm⟩
  have h2 : excludedUp m p ≠ true := fun hup => by
    obtain ⟨q, hq, _, hqm⟩ := (excludedUp_iff m p).mp hup
    exact h ⟨q, hq, hqm⟩
  simp only [getState, if_neg h1, Bool.not_eq_true] at *
  simp [h2]

theorem getState_self_excluded {m : StateMap} {p : Path}
    (h : mapGet m p = some "excluded") : getState m p = "excluded" := by
  simp [getState, h]

theorem not_exists_excluded_of_take (m : StateMap) (p : Path)
    (h : ∀ i, i ≤ p.length → mapGet m (p.take i) ≠ some "excluded") :
    ¬ ∃ q, q <+: p ∧ mapGet m q = some "excluded" := by
  rintro ⟨q, hq, hqm⟩
  have h1 : q = p.take q.length := List.prefix_iff_eq_take.mp hq
  exact h q.length hq.length_le (h1 ▸ hqm)

end Lollms

namespace Lollms

/-! Facts about the stream relay. -/

theorem isEnd_false_of_mem_handleFrame {l : List Char} {e : ChatEvent}
    (h : e ∈ handleFrame l) : isEnd e = false := by
  simp only [handleFrame] at h
  split at h
  · simp at h
  · split at h
    · split at h
      · simp at h
      · simp only [List.mem_singleton] at h
        subst h; rfl
    · simp at h

theorem isEnd_false_of_mem_processChunk {s : String} {e : ChatEvent}
    (h : e ∈ processChunk s) : isEnd e = false := by
  simp only [processChunk, List.mem_flatMap] at h
  obtain ⟨l, _, hl⟩ := h
  exact isEnd_false_of_mem_handleFrame hl

theorem countP_isEnd_flatMap (chunks : List String) :
    (chunks.flatMap processChunk).countP isEnd = 0 := by
  rw [List.countP_eq_zero]
  intro e he
  simp only [List.mem_flatMap] at he
  obtain ⟨c, _, hc⟩ := he
  simp [isEnd_false_of_mem_processChunk hc]

/-- C8: once a host is configured (so that a request is actually issued),
`handleChatRequest` posts the end-of-turn event `chatEnd` exactly once and
as the last event, for every transport outcome: normal or exhausted
streams, a rejected connection, and a not-ok or bodyless response; in the
latter two failure cases the events are exactly one `chatError` followed by
`chatEnd`.  (With no host configured the source posts only a configuration
error and never issues a request, which the spec treats as a separate
configuration-error path.) -/
theorem chat_end_exactly_once : ∀ (h : String) (resp : FetchResult),
    (handleChatRequest (some h) resp).countP isEnd = 1 ∧
    (handleChatRequest (some h) resp).getLast? = some ChatEvent.chatEnd ∧
    (∀ msg, resp = FetchResult.netError msg →
      handleChatRequest (some h) resp = [ChatEvent.chatError msg, ChatEvent.chatEnd]) ∧
    (∀ ok status body, resp = FetchResult.response ok status body →
      (!ok || body.isNone) = true →
      handleChatRequest (some h) resp
        = [ChatEvent.chatError ("API error: " ++ toString status), ChatEvent.chatEnd]) := by
  intro h resp
  refine ⟨?_, ?_, ?_, ?_⟩
  · cases resp with
    | netError msg =>
      simp [handleChatRequest, List.countP_append, List.countP_cons, isEnd]
    | response ok status body =>
      cases hb : (!ok || body.isNone) with
      | true =>
        simp [handleChatRequest, hb, List.countP_append, List.countP_cons, isEnd]
      | false =>
        simp [handleChatRequest, hb, List.countP_append, List.countP_cons, isEnd,
          countP_isEnd_flatMap]
  · cases resp with
    | netError msg => simp [handleChatRequest]
    | response ok status body =>
      cases hb : (!ok || body.isNone) with
      | true => simp [handleChatRequest, hb]
      | false => simp [handleChatRequest, hb, List.getLast?_concat]
  · intro msg hmsg
    subst hmsg
    simp [handleChatRequest]
  · intro ok status body hresp hcond
    subst hresp
    simp [handleChatRequest, hcond]

/-- C8 witness: a connection failure produces exactly one error event
followed by the single end-of-turn event. -/
theorem chat_end_exactly_once_witness :
    handleChatRequest (some "http://host") (FetchResult.netError "boom")
      = [ChatEvent.chatError "boom", ChatEvent.chatEnd] :=
  (chat_end_exactly_once "http://host" (FetchResult.netError "boom")).2.2.1 "boom" rfl

/-- C1 (evaluation of the code at the failing input): when the documented
byte sequence is split inside the first frame — here after `data: {"cho` —
the relay forwards NO text fragment at all: the first read's partial frame
fails to parse and is skipped, and the continuation in the second read does
not start with `data: ` and is filtered out.  Delivered in a single read,
the same bytes do produce the fragment `Hi`, so the forwarded output
depends on the chunking, contradicting the claim. -/
theorem stream_split_frame_dropped :
    handleChatRequest (some "http://host")
      (FetchResult.response true 200
        (some ["data: \x7b\"cho",
               "ices\":[\x7b\"delta\":\x7b\"content\":\"Hi\"\x7d\x7d]\x7d\n\ndata: [DONE]\n\n"]))
      = [ChatEvent.chatEnd] ∧
    handleChatRequest (some "http://host")
      (FetchResult.response true 200
        (some ["data: \x7b\"choices\":[\x7b\"delta\":\x7b\"content\":\"Hi\"\x7d\x7d]\x7d\n\ndata: [DONE]\n\n"]))
      = [ChatEvent.chatChunk "Hi", ChatEvent.chatEnd] := by decide

/-- C7 (evaluation of the code at the failing input): a persisted state
file whose entry carries the unknown policy tag `bogus` parses as JSON, so
the unchecked `as [string, FileState][]` cast lets `loadState` install the
entry unchanged: the map is not reset, no failure is surfaced, and
`getState` afterwards reports the unknown tag as the path's policy. -/
theorem unknown_tag_loaded_silently :
    loadState [] (some (some [(["w", "a.py"], "bogus")]))
      = { map := [(["w", "a.py"], "bogus")], errorShown := false, fired := [[]] } ∧
    getState [(["w", "a.py"], "bogus")] ["w", "a.py"] = "bogus" := by decide

end Lollms

namespace Lollms

/-- C2: the effective policy computed by `getState` is 'excluded' exactly
when the path itself or one of its ancestors (the prefixes of the segment
path, down to the root) carries an explicit 'excluded' entry; when no such
entry exists, the result is the path's own explicit policy, defaulting to
'treeOnly' for paths with no entry; and the ancestor walk stops at the
root, where `dirname` is the identity, so it never runs past it. -/
theorem effective_policy_excluded_iff_ancestor : ∀ (m : StateMap) (p : Path),
    (getState m p = "excluded" ↔ ∃ q, q <+: p ∧ mapGet m q = some "excluded") ∧
    ((¬ ∃ q, q <+: p ∧ mapGet m q = some "excluded") → getState m p = ownPolicy m p) ∧
    (mapGet m p = none → (¬ ∃ q, q <+: p ∧ mapGet m q = some "excluded") →
      getState m p = "treeOnly") ∧
    excludedUp m [] = false := by
  intro m p
  refine ⟨getState_excluded_iff m p, getState_of_no_excluded_ancestor, ?_, rfl⟩
  intro hnone hno
  rw [getState_of_no_excluded_ancestor hno]
  simp [ownPolicy, hnone]

/-- C2 witness: an 'excluded' entry on a parent directory makes a child
file effectively 'excluded', and a path with no entry and no excluded
ancestor is 'treeOnly'. -/
theorem effective_policy_excluded_iff_ancestor_witness :
    getState [(["r", "sub"], "excluded"), (["r", "sub", "x.txt"], "fullContent")]
      ["r", "sub", "x.txt"] = "excluded" ∧
    getState [(["a"], "fullContent")] ["b"] = "treeOnly" := by
  constructor
  · exact (effective_policy_excluded_iff_ancestor _ _).1.mpr ⟨["r", "sub"], by decide, by decide⟩
  · exact (effective_policy_excluded_iff_ancestor [(["a"], "fullContent")] ["b"]).2.2.1
      (by decide) (not_exists_excluded_of_take _ _ (by decide))

/-- Effect of one `cycleState` call on the explicit entry of an existing
file: the stored policy advances along the source's three-way branch. -/
theorem cycledMap_get (fs : List Path) (m : StateMap) (p : Path) (h : p ∈ fs) :
    mapGet (cycledMap fs m p) p =
      (if mapGet m p = some "fullContent" then some "signatures"
       else if mapGet m p = some "signatures" then none
       else some "fullContent") := by
  have hmap : cycledMap fs m p
      = applyPolicy m (getAllFileUris fs [p])
          (if mapGet m p = some "fullContent" then "signatures"
           else if mapGet m p = some "signatures" then "treeOnly"
           else "fullContent") := rfl
  rw [hmap, getAllFileUris_single_file fs p h]
  by_cases h1 : mapGet m p = some "fullContent"
  · simp only [if_pos h1]
    exact applyPolicy_mem_set [p] m "signatures" p (by decide) (List.mem_singleton.mpr rfl)
  · simp only [if_neg h1]
    by_cases h2 : mapGet m p = some "signatures"
    · simp only [if_pos h2]
      exact applyPolicy_mem_delete [p] m p (List.mem_singleton.mpr rfl)
    · simp only [if_neg h2]
      exact applyPolicy_mem_set [p] m "fullContent" p (by decide) (List.mem_singleton.mpr rfl)

/-- C3 (amended): for every FILE path present in the filesystem whose
explicit stored policy is one of the three cycle states — no entry
(TreeOnly), 'fullContent' or 'signatures' — three `cycleState` calls return
the explicit entry to its original value, visiting exactly the rotation
TreeOnly → FullContent → SignaturesOnly → TreeOnly, so TreeOnly is never
skipped.  (The original claim is false for a path whose explicit entry is
'excluded': the cycle then reaches TreeOnly, not 'excluded', after three
steps — see the counterexample.) -/
theorem cycle_three_round_trip : ∀ (fs : List Path) (m : StateMap) (p : Path),
    p ∈ fs →
    (mapGet m p = none ∨ mapGet m p = some "fullContent" ∨ mapGet m p = some "signatures") →
    mapGet (cycledMap fs (cycledMap fs (cycledMap fs m p) p) p) p = mapGet m p ∧
    ((mapGet m p = none ∧
        mapGet (cycledMap fs m p) p = some "fullContent" ∧
        mapGet (cycledMap fs (cycledMap fs m p) p) p = some "signatures") ∨
     (mapGet m p = some "fullContent" ∧
        mapGet (cycledMap fs m p) p = some "signatures" ∧
        mapGet (cycledMap fs (cycledMap fs m p) p) p = none) ∨
     (mapGet m p = some "signatures" ∧
        mapGet (cycledMap fs m p) p = none ∧
        mapGet (cycledMap fs (cycledMap fs m p) p) p = some "fullContent")) := by
  intro fs m p hp hstate
  have g1 := cycledMap_get fs m p hp
  have g2 := cycledMap_get fs (cycledMap fs m p) p hp
  have g3 := cycledMap_get fs (cycledMap fs (cycledMap fs m p) p) p hp
  rcases hstate with h0 | h0 | h0
  · have e1 : mapGet (cycledMap fs m p) p = some "fullContent" := by
      rw [g1, h0]; simp
    have e2 : mapGet (cycledMap fs (cycledMap fs m p) p) p = some "signatures" := by
      rw [g2, e1]; simp
    have e3 : mapGet (cycledMap fs (cycledMap fs (cycledMap fs m p) p) p) p = none := by
      rw [g3, e2]; simp
    exact ⟨by rw [e3, h0], Or.inl ⟨h0, e1, e2⟩⟩
  · have e1 : mapGet (cycledMap fs m p) p = some "signatures" := by
      rw [g1, h0]; simp
    have e2 : mapGet (cycledMap fs (cycledMap fs m p) p) p = none := by
      rw [g2, e1]; simp
    have e3 : mapGet (cycledMap fs (cycledMap fs (cycledMap fs m p) p) p) p
        = some "fullContent" := by
      rw [g3, e2]; simp
    exact ⟨by rw [e3, h0], Or.inr (Or.inl ⟨h0, e1, e2⟩)⟩
  · have e1 : mapGet (cycledMap fs m p) p = none := by
      rw [g1, h0]; simp
    have e2 : mapGet (cycledMap fs (cycledMap fs m p) p) p = some "fullContent" := by
      rw [g2, e1]; simp
    have e3 : mapGet (cycledMap fs (cycledMap fs (cycledMap fs m p) p) p) p
        = some "signatures" := by
      rw [g3, e2]; simp
    exact ⟨by rw [e3, h0], Or.inr (Or.inr ⟨h0, e1, e2⟩)⟩

/-- C3 witness: a file with no explicit entry cycles through
TreeOnly → FullContent → SignaturesOnly and back to no entry. -/
theorem cycle_three_round_trip_witness :
    mapGet (cycledMap [["a"]] (cycledMap [["a"]] (cycledMap [["a"]] [] ["a"]) ["a"]) ["a"]) ["a"]
      = mapGet ([] : StateMap) ["a"] ∧
    mapGet (cycledMap [["a"]] [] ["a"]) ["a"] = some "fullContent" := by
  have h := cycle_three_round_trip [["a"]] [] ["a"] (by decide) (Or.inl (by decide))
  refine ⟨h.1, ?_⟩
  rcases h.2 with h' | h' | h'
  · exact h'.2.1
  · exact absurd h'.1 (by decide)
  · exact absurd h'.1 (by decide)

/-- C3 counterexample: the file `a` has the explicit policy 'excluded' and
no excluded ancestor (so no inherited exclusion — `excludedUp` is false),
yet after three `cycleState` calls its explicit entry is gone (TreeOnly)
instead of having returned to 'excluded': the source treats any entry other
than 'fullContent' and 'signatures' as the TreeOnly stage and moves it to
'fullContent'. -/
theorem cycle_three_fails_on_explicit_excluded :
    excludedUp [(["a"], "excluded")] ["a"] = false ∧
    mapGet [(["a"], "excluded")] ["a"] = some "excluded" ∧
    mapGet (cycledMap [["a"]]
        (cycledMap [["a"]] (cycledMap [["a"]] [(["a"], "excluded")] ["a"]) ["a"]) ["a"]) ["a"]
      = none := by decide

/-- C6: `saveState` persists the entry list of the map in insertion order
and `loadState` rebuilds the map from it: the round trip on the empty store
yields the empty store, and on any store without duplicate keys it yields
the identical map, hence identical effective policies for every path. -/
theorem save_load_round_trip :
    (loadState [] (some (some (savedEntries [])))).map = [] ∧
    ∀ (m prev : StateMap), (m.map Prod.fst).Nodup →
      (loadState prev (some (some (savedEntries m)))).map = m ∧
      ∀ p, getState (loadState prev (some (some (savedEntries m)))).map p = getState m p := by
  refine ⟨rfl, ?_⟩
  intro m prev hnd
  have hmap : (loadState prev (some (some (savedEntries m)))).map = m := by
    simp only [loadState, savedEntries]
    exact loadEntries_eq_self m hnd
  exact ⟨hmap, fun p => by rw [hmap]⟩

/-- C6 witness: a two-entry store survives the save/load round trip. -/
theorem save_load_round_trip_witness :
    (loadState []
        (some (some (savedEntries [(["a"], "fullContent"), (["b"], "excluded")])))).map
      = [(["a"], "fullContent"), (["b"], "excluded")] :=
  ((save_load_round_trip.2 [(["a"], "fullContent"), (["b"], "excluded")] []) (by decide)).1

/-- C9: `setState` only ever inserts or deletes entries of FILE paths that
exist in the filesystem at call time: any key whose entry changes is in the
expanded file list (hence a member of `fs`); on a prefix-free filesystem a
directory (a path with a strict descendant in `fs`) never gains or loses an
explicit entry, and excluding a directory records 'excluded' on every file
beneath it instead. -/
theorem set_state_touches_only_files :
    ∀ (fs : List Path) (m : StateMap) (uris : List Path) (st : String),
    (∀ p : Path, mapGet (setState fs true m uris st).map p ≠ mapGet m p →
        p ∈ getAllFileUris fs uris ∧ p ∈ fs) ∧
    (wellFormed fs → ∀ d : Path, (∃ g ∈ fs, d <+: g ∧ d ≠ g) →
        mapGet (setState fs true m uris st).map d = mapGet m d) ∧
    (wellFormed fs → ∀ d f : Path, f ∈ fs → d <+: f → d ≠ f →
        mapGet (setState fs true m [d] "excluded").map f = some "excluded") := by
  intro fs m uris st
  have hmap : (setState fs true m uris st).map = applyPolicy m (getAllFileUris fs uris) st := rfl
  refine ⟨?_, ?_, ?_⟩
  · intro p hne
    by_cases hp : p ∈ getAllFileUris fs uris
    · exact ⟨hp, getAllFileUris_subset hp⟩
    · exact absurd (by rw [hmap]; exact applyPolicy_not_mem _ _ _ _ hp) hne
  · intro hwf d hdir
    obtain ⟨g, hg, hpre, hne⟩ := hdir
    have hdfs : d ∉ fs := fun hd => hne (hwf d hd g hg hpre)
    have hdfiles : d ∉ getAllFileUris fs uris := fun hd => hdfs (getAllFileUris_subset hd)
    rw [hmap]
    exact applyPolicy_not_mem _ _ _ _ hdfiles
  · intro hwf d f hf hpre hne
    have hdfs : d ∉ fs := fun hd => hne (hwf d hd f hf hpre)
    have hmem : f ∈ getAllFileUris fs [d] := getAllFileUris_dir_mem hdfs hf hpre (Ne.symm hne)
    have hmap' : (setState fs true m [d] "excluded").map
        = applyPolicy m (getAllFileUris fs [d]) "excluded" := rfl
    rw [hmap']
    exact applyPolicy_mem_set _ _ _ _ (by decide) hmem

/-- C9 witness: excluding the directory `d` of a three-file workspace
leaves `d` itself without an entry while its files gain 'excluded'. -/
theorem set_state_touches_only_files_witness :
    mapGet (setState [["d", "x"], ["d", "y"], ["z"]] true [] [["d"]] "excluded").map ["d"]
      = none ∧
    mapGet (setState [["d", "x"], ["d", "y"], ["z"]] true [] [["d"]] "excluded").map ["d", "x"]
      = some "excluded" := by
  have h := set_state_touches_only_files [["d", "x"], ["d", "y"], ["z"]] [] [["d"]] "excluded"
  constructor
  · exact (h.2.1 (by decide) ["d"] ⟨["d", "x"], by decide, by decide, by decide⟩).trans rfl
  · exact h.2.2 (by decide) ["d"] ["d", "x"] (by decide) (by decide) (by decide)

/-- C10: when none of the URIs passed to `setState` can be stat'ed (no
member of `fs` has any of them as a prefix), the expanded file list is
empty, so the policy map is unchanged — yet the call still completes (it is
total), still rewrites the persisted state file with the unchanged entries,
and still fires exactly one change notification carrying the empty path
set. -/
theorem set_state_unstattable_noop :
    ∀ (fs : List Path) (m : StateMap) (uris : List Path) (st : String),
    (∀ u ∈ uris, ∀ f ∈ fs, ¬ u <+: f) →
    setState fs true m uris st = { map := m, written := some m, fired := [[]] } := by
  intro fs m uris st h
  have hfiles : getAllFileUris fs uris = [] := getAllFileUris_nil fs uris h
  simp [setState, hfiles, applyPolicy]

/-- C10 witness: setting a policy on a nonexistent path changes nothing,
rewrites the file, and fires one empty notification. -/
theorem set_state_unstattable_noop_witness :
    setState [["a"]] true [(["a"], "fullContent")] [["b"]] "excluded"
      = { map := [(["a"], "fullContent")],
          written := some [(["a"], "fullContent")], fired := [[]] } :=
  set_state_unstattable_noop [["a"]] [(["a"], "fullContent")] [["b"]] "excluded" (by decide)

theorem prefix_append_drop {root p : Path} (h : root <+: p) :
    root ++ p.drop root.length = p := by
  obtain ⟨t, ht⟩ := h
  subst ht
  rw [List.drop_left]

/-- C4: after `setState [dir] Excluded`, assembling from any root that is
an ancestor of `dir` (on a prefix-free filesystem) omits every file `f`
strictly below `dir`: `f` is not in the included file list that generates
the content sections, its relative path is not a prefix of any included
file's relative path, and therefore the prefix tree from which the tree
section is rendered has no node at it. -/
theorem exclude_dir_omits_descendants :
    ∀ (fs : List Path) (m : StateMap) (root dir f : Path),
    wellFormed fs → f ∈ fs → dir <+: f → dir ≠ f → root <+: dir →
    f ∉ includedFiles fs (setState fs true m [dir] "excluded").map root ∧
    (∀ g ∈ includedFiles fs (setState fs true m [dir] "excluded").map root,
        ¬ relSegs root f <+: relSegs root g) ∧
    ¬ treeHasNode
        (insertedPaths (includedFiles fs (setState fs true m [dir] "excluded").map root) root)
        (relSegs root f) := by
  intro fs m root dir f hwf hf hdf hdne hrd
  have hdfs : dir ∉ fs := fun hd => hdne (hwf dir hd f hf hdf)
  have hmem : f ∈ getAllFileUris fs [dir] := getAllFileUris_dir_mem hdfs hf hdf (Ne.symm hdne)
  have hmapeq : (setState fs true m [dir] "excluded").map
      = applyPolicy m (getAllFileUris fs [dir]) "excluded" := rfl
  have hexcl : mapGet (setState fs true m [dir] "excluded").map f = some "excluded" := by
    rw [hmapeq]
    exact applyPolicy_mem_set _ _ _ _ (by decide) hmem
  have hstf : getState (setState fs true m [dir] "excluded").map f = "excluded" :=
    getState_self_excluded hexcl
  have hnotinc :
      f ∉ includedFiles fs (setState fs true m [dir] "excluded").map root := by
    intro hmemf
    have hpred := (List.mem_filter.mp hmemf).2
    rw [bne_iff_ne] at hpred
    exact hpred hstf
  have homit : ∀ g ∈ includedFiles fs (setState fs true m [dir] "excluded").map root,
      ¬ relSegs root f <+: relSegs root g := by
    intro g hg hpre'
    have hgall : g ∈ getAllFileUris fs [root] := (List.mem_filter.mp hg).1
    have hgfs : g ∈ fs := getAllFileUris_subset hgall
    have hrg : root <+: g := getAllFileUris_root_prefix hgall
    have hrf : root <+: f := hrd.trans hdf
    obtain ⟨t, ht⟩ := hpre'
    have hfg : f <+: g := by
      refine ⟨t, ?_⟩
      have h1 : root ++ relSegs root f = f := prefix_append_drop hrf
      have h2 : root ++ relSegs root g = g := prefix_append_drop hrg
      calc f ++ t = (root ++ relSegs root f) ++ t := by rw [h1]
        _ = root ++ (relSegs root f ++ t) := by rw [List.append_assoc]
        _ = root ++ relSegs root g := by rw [ht]
        _ = g := h2
    have hfeq : f = g := hwf f hf g hgfs hfg
    subst hfeq
    exact hnotinc hg
  refine ⟨hnotinc, homit, ?_⟩
  rintro ⟨hne', g', hg', hpre''⟩
  simp only [insertedPaths, List.mem_filter, List.mem_map] at hg'
  obtain ⟨⟨g, hg, rfl⟩, _⟩ := hg'
  exact homit g hg hpre''

/-- C4 witness: excluding `w/d` removes `w/d/f.txt` from the included file
list of an assembly rooted at `w`. -/
theorem exclude_dir_omits_descendants_witness :
    ["w", "d", "f.txt"] ∉ includedFiles [["w", "d", "f.txt"], ["w", "g.txt"]]
      (setState [["w", "d", "f.txt"], ["w", "g.txt"]] true [] [["w", "d"]] "excluded").map
      ["w"] :=
  (exclude_dir_omits_descendants [["w", "d", "f.txt"], ["w", "g.txt"]] [] ["w"] ["w", "d"]
    ["w", "d", "f.txt"] (by decide) (by decide) (by decide) (by decide) (by decide)).1

/-! Facts about the tree renderer. -/

theorem sumLens_cons (p : Path) (rest : List Path) :
    sumLens (p :: rest) = p.length + sumLens rest := by
  simp [sumLens]

theorem sumLens_childPaths_le (paths : List Path) (e : String) :
    sumLens (childPaths paths e) + (childPaths paths e).length ≤ sumLens paths := by
  induction paths with
  | nil => simp [childPaths, sumLens]
  | cons p rest ih =>
    rw [sumLens_cons]
    cases p with
    | nil =>
      have h : childPaths ([] :: rest) e = childPaths rest e := by
        simp [childPaths, List.filterMap_cons]
      rw [h]
      omega
    | cons h t =>
      by_cases he : h = e
      · cases t with
        | nil =>
          have hcp : childPaths ([h] :: rest) e = childPaths rest e := by
            simp [childPaths, List.filterMap_cons, he]
          rw [hcp]
          simp only [List.length_cons, List.length_nil]
          omega
        | cons t0 ts =>
          have hcp : childPaths ((h :: t0 :: ts) :: rest) e
              = (t0 :: ts) :: childPaths rest e := by
            simp [childPaths, List.filterMap_cons, he]
          rw [hcp, sumLens_cons]
          simp only [List.length_cons]
          omega
      · have hcp : childPaths ((h :: t) :: rest) e = childPaths rest e := by
          simp [childPaths, List.filterMap_cons, he]
        rw [hcp]
        simp only [List.length_cons]
        omega

theorem sumLens_childPaths_lt {paths : List Path} {e : String}
    (h : (childPaths paths e).isEmpty = false) :
    sumLens (childPaths paths e) < sumLens paths := by
  have hle := sumLens_childPaths_le paths e
  have hpos : 0 < (childPaths paths e).length := by
    cases hcp : childPaths paths e with
    | nil => rw [hcp] at h; simp at h
    | cons a l => simp
  omega

theorem renderLevel_congr (m : StateMap) (cur : Path) (paths : List Path)
    (child₁ child₂ : List Path → Path → List String)
    (h : ∀ e, (childPaths paths e).isEmpty = false →
        child₁ (childPaths paths e) (cur ++ [e]) = child₂ (childPaths paths e) (cur ++ [e])) :
    ∀ es, renderLevel m cur paths child₁ es = renderLevel m cur paths child₂ es := by
  intro es
  induction es with
  | nil => rfl
  | cons e rest ih =>
    simp only [renderLevel]
    rw [ih]
    by_cases hsub : (childPaths paths e).isEmpty
    · simp [hsub]
    · have hb : (childPaths paths e).isEmpty = false := by
        simpa using hsub
      simp [hb, h e hb]

/-- Fuel irrelevance for the tree renderer: any fuel above the total
segment count produces the same lines, so `buildLines`'s choice of
`sumLens paths + 1` computes the source's untruncated recursion. -/
theorem buildLinesF_fuel (m : StateMap) :
    ∀ (f g : Nat) (paths : List Path) (cur : Path),
      sumLens paths < f → sumLens paths < g →
      buildLinesF m f paths cur = buildLinesF m g paths cur := by
  intro f
  induction f with
  | zero => intro g paths cur hf _; omega
  | succ f ihf =>
    intro g paths cur hf hg
    cases g with
    | zero => omega
    | succ g =>
      simp only [buildLinesF]
      refine renderLevel_congr m cur paths _ _ ?_ (childKeys paths)
      intro e hsub
      have hlt := sumLens_childPaths_lt hsub
      exact ihf g (childPaths paths e) (cur ++ [e]) (by omega) (by omega)

theorem empty_append_str : ∀ s : String, "" ++ s = s := by
  intro s
  obtain ⟨l⟩ := s
  rfl

theorem charsLe_total : ∀ a b : List Char, charsLe a b = true ∨ charsLe b a = true := by
  intro a
  induction a with
  | nil => intro b; left; rfl
  | cons x xs ih =>
    intro b
    cases b with
    | nil => right; rfl
    | cons y ys =>
      by_cases hxy : x = y
      · subst hxy
        simp only [charsLe, if_pos rfl]
        exact ih ys
      · rcases lt_trichotomy x y with h | h | h
        · left; simp [charsLe, hxy, h]
        · exact absurd h hxy
        · right
          have hyx : ¬ y = x := fun hh => hxy hh.symm
          simp [charsLe, hyx, h]

theorem charsLe_trans : ∀ a b c : List Char,
    charsLe a b = true → charsLe b c = true → charsLe a c = true := by
  intro a
  induction a with
  | nil => intro b c _ _; rfl
  | cons x xs ih =>
    intro b c hab hbc
    cases b with
    | nil => simp [charsLe] at hab
    | cons y ys =>
      cases c with
      | nil => simp [charsLe] at hbc
      | cons z zs =>
        by_cases hxy : x = y
        · subst hxy
          by_cases hxz : x = z
          · subst hxz
            simp only [charsLe, if_pos rfl] at hab hbc ⊢
            exact ih ys zs hab hbc
          · simp only [charsLe, if_pos rfl] at hab
            simp only [charsLe, if_neg hxz] at hbc ⊢
            exact hbc
        · simp only [charsLe, if_neg hxy] at hab
          have hxyl : x < y := by simpa using hab
          by_cases hyz : y = z
          · subst hyz
            simp only [charsLe, if_neg hxy]
            exact hab
          · simp only [charsLe, if_neg hyz] at hbc
            have hyzl : y < z := by simpa using hbc
            have hxzl : x < z := lt_trans hxyl hyzl
            have hxz : ¬ x = z := ne_of_lt hxzl
            simp [charsLe, hxz, hxzl]

instance : IsTotal String fun a b => strLe a b = true :=
  ⟨fun a b => charsLe_total a.data b.data⟩

instance : IsTrans String fun a b => strLe a b = true :=
  ⟨fun a b c => charsLe_trans a.data b.data c.data⟩

theorem specLevel_eq_map (m : StateMap) (cur : Path) (paths : List Path) (pref : String)
    (child : List Path → Path → String → List String)
    (child' : List Path → Path → List String)
    (hchild : ∀ sub uri pr, child sub uri pr = (child' sub uri).map fun s => pr ++ s) :
    ∀ es, specLevel m cur paths pref child es
      = (renderLevel m cur paths child' es).map fun s => pref ++ s := by
  intro es
  induction es with
  | nil => rfl
  | cons e rest ih =>
    simp only [specLevel, renderLevel, List.map_cons, List.map_append, ih, hchild,
      List.map_map]
    by_cases hsub : (childPaths paths e).isEmpty
    · simp [hsub]
    · have hb : (childPaths paths e).isEmpty = false := by simpa using hsub
      simp only [hb, Bool.false_eq_true, if_false]
      have hmap : ∀ (L : List String) (c : String),
          List.map (fun s => (pref ++ c) ++ s) L
            = List.map ((fun s => pref ++ s) ∘ fun s => c ++ s) L := by
        intro L c
        refine List.map_congr_left ?_
        intro s _
        simp only [Function.comp_apply]
        exact String.append_assoc pref c s
      rw [hmap]

theorem specLinesF_eq (m : StateMap) :
    ∀ (fuel : Nat) (paths : List Path) (cur : Path) (pref : String),
      specLinesF m fuel paths cur pref
        = (buildLinesF m fuel paths cur).map fun s => pref ++ s := by
  intro fuel
  induction fuel with
  | zero => intro paths cur pref; rfl
  | succ fuel ih =>
    intro paths cur pref
    simp only [specLinesF, buildLinesF]
    exact specLevel_eq_map m cur paths pref _ _ (fun sub uri pr => ih sub uri pr)
      (childKeys paths)

/-- C5 (amended): at every level of the rendered Markdown tree the entries
— directories and files together, with no directory-before-file priority —
are the distinct keys of the level in ascending code-unit order (`childKeys`
is sorted under the JS string order and is a permutation of the distinct
first segments); and the whole rendered section equals the specification
renderer `specGenerateTree`, which lays every line out as accumulated
indentation prefix, `├─ `/`└─ ` connector (`│  `/three-space continuation),
folder glyph for nodes with children and file glyph for leaves, the entry
name, then the badge ` [+]` for effective policy 'fullContent', ` [S]` for
'signatures', and nothing otherwise. -/
theorem tree_rendering_alphabetical :
    (∀ paths : List Path,
        List.Sorted (fun a b => strLe a b = true) (childKeys paths) ∧
        (childKeys paths).Perm (paths.filterMap List.head?).dedup) ∧
    ∀ (m : StateMap) (uris : List Path) (root : Path),
      specGenerateTree m uris root = generateMarkdownTreeFromUris m uris root := by
  constructor
  · intro paths
    exact ⟨List.sorted_insertionSort _ _, List.perm_insertionSort _ _⟩
  · intro m uris root
    unfold specGenerateTree generateMarkdownTreeFromUris buildLines
    rw [specLinesF_eq]
    simp [empty_append_str]

/-- C5 counterexample: in the two-file workspace `w/a.txt`, `w/b/c.txt` the
top level of the rendered tree lists the FILE `a.txt` before the DIRECTORY
`b`: the renderer sorts each level purely alphabetically
(`Object.keys(level).sort()`), so directories are not sorted before files
as claimed.  (`a.txt` is a leaf — its `childPaths` are empty, giving the
file glyph — while `b` has the child `c.txt`.) -/
theorem tree_file_sorts_before_directory :
    generateMarkdownTreeFromUris [] [["w", "a.txt"], ["w", "b", "c.txt"]] ["w"]
      = "📁 w/\n├─ 📄 a.txt\n└─ 📁 b\n   └─ 📄 c.txt" ∧
    childKeys (insertedPaths [["w", "a.txt"], ["w", "b", "c.txt"]] ["w"]) = ["a.txt", "b"] ∧
    childPaths (insertedPaths [["w", "a.txt"], ["w", "b", "c.txt"]] ["w"]) "a.txt" = [] ∧
    childPaths (insertedPaths [["w", "a.txt"], ["w", "b", "c.txt"]] ["w"]) "b" = [["c.txt"]] := by
  decide

end Lollms
